import Mathlib

/-!
# Verification of the gogit repository wrapper (`git.go`)

Shallow embedding of the pure parsing and decision logic of `git.go`.
Go strings are modelled as `List Char`; the external `git` process is an
oracle, so every operation that consumes command output is embedded as a
function of that output (and of the success flags of the commands it runs).
Go's standard-library string helpers (`strings.Split`, `strings.Fields`,
`strings.Contains`, `strings.TrimSuffix`, `strings.Index`,
`strings.HasPrefix`/`HasSuffix`) are reproduced below with their documented
semantics, specialised to the single-character separators the source uses.
-/

namespace Gogit

/-- Characters of a string literal: lets us write Go string constants
as `List Char` values. -/
def str (s : String) : List Char := s.data

/-- Go `strings.Split(s, sep)` for a one-character separator `c`.
`Split` always returns at least one (possibly empty) piece. -/
def splitOnChar (c : Char) : List Char → List (List Char)
  | [] => [[]]
  | x :: xs =>
    if x = c then [] :: splitOnChar c xs
    else
      match splitOnChar c xs with
      | [] => [[x]]
      | h :: t => (x :: h) :: t

/-- Go `unicode.IsSpace` restricted to the code points `strings.Fields`
splits on (the Latin-1 white space set). -/
def goIsSpace (c : Char) : Bool :=
  c = ' ' || c = Char.ofNat 9 || c = Char.ofNat 10 || c = Char.ofNat 11 ||
  c = Char.ofNat 12 || c = Char.ofNat 13 || c = Char.ofNat 133 || c = Char.ofNat 160

/-- Accumulator pass for `goFields`: `acc` holds the current field reversed. -/
def fieldsAux : List Char → List Char → List (List Char)
  | [], acc => if acc = [] then [] else [acc.reverse]
  | x :: xs, acc =>
    if goIsSpace x then
      if acc = [] then fieldsAux xs []
      else acc.reverse :: fieldsAux xs []
    else fieldsAux xs (x :: acc)

/-- Go `strings.Fields`: the maximal runs of non-white-space characters. -/
def goFields (s : List Char) : List (List Char) := fieldsAux s []

/-- Go `strings.Contains(hay, needle)`: scan for `needle` at every tail. -/
def hasSubstr (needle : List Char) : List Char → Bool
  | [] => needle.isPrefixOf []
  | x :: t => needle.isPrefixOf (x :: t) || hasSubstr needle t

/-- Go `strings.TrimSuffix(s, suf)`: drop `suf` from the end when present,
otherwise return `s` unchanged. -/
def goTrimSuffix (suf s : List Char) : List Char :=
  if suf.isSuffixOf s then s.take (s.length - suf.length) else s

/-- Byte index of the first `' '` in a line (Go `strings.Index(line, " ")`),
`none` standing for Go's `-1`. -/
def idxOfSpace : List Char → Option Nat
  | [] => none
  | x :: t => if x = ' ' then some 0 else (idxOfSpace t).map (· + 1)

/-- The slice `line[strings.Index(line, " ")+1:]` from `ShowDeletedFile`:
everything after the first space; when there is no space, Go's `-1 + 1 = 0`
makes this the whole line. -/
def afterFirstSpace (line : List Char) : List Char :=
  match idxOfSpace line with
  | some i => line.drop (i + 1)
  | none => line

/-- Go `path.Join(a, b)` for the already-clean, slash-free components the
source passes it (empty components are dropped, otherwise join with `/`);
the `path.Clean` normalisation is not needed for such inputs. -/
def pathJoin (a b : List Char) : List Char :=
  if a = [] then b else if b = [] then a else a ++ '/' :: b

/-! ## Data model (`Repo`, `GitOpts`, `DiffStat`) -/

/-- The `Repo` struct. The `logger` field is a side channel (spec §1) and
carries no data-flow, so it is omitted. -/
structure Repo where
  URL : List Char
  Name : List Char
  WorkDir : List Char
  RepoDir : List Char
deriving DecidableEq

/-- The `GitOpts` struct (`Rebase` default `false`, `CloneDir` default `""`). -/
structure GitOpts where
  Rebase : Bool
  CloneDir : List Char
deriving DecidableEq

/-- `SetOptFunc`: Go mutates the options record through a pointer; we model
a setter as a state transformer. -/
def SetOptFunc : Type := GitOpts → GitOpts

/-- `SetOptRebase()` sets the rebase flag. -/
def SetOptRebase : SetOptFunc := fun o => { o with Rebase := true }

/-- `SetCloneDir(s)` sets the clone-directory override. -/
def SetCloneDir (s : List Char) : SetOptFunc := fun o => { o with CloneDir := s }

/-- `getOpts`: fold the setters over the zero-valued `GitOpts`. -/
def getOpts (optSetters : List SetOptFunc) : GitOpts :=
  optSetters.foldl (fun o f => f o) { Rebase := false, CloneDir := [] }

/-- `ModType`: the three change kinds. -/
inductive ModType where
  | StatNew
  | StatModified
  | StatDeleted
deriving DecidableEq

/-- `DiffStat`: one parsed line of `git diff --name-status`. -/
structure DiffStat where
  Stat : ModType
  Filename : List Char
deriving DecidableEq

/-- The `statMap` lookup table; `none` models a key that is absent. -/
def statMap (code : List Char) : Option ModType :=
  if code = str "A" then some ModType.StatNew
  else if code = str "M" then some ModType.StatModified
  else if code = str "D" then some ModType.StatDeleted
  else none

/-! ## Parsing operations -/

/-- The loop body of `DiffStatus`: keep a line exactly when `strings.Fields`
gives two fields and the first is in `statMap`. -/
def diffStatusLines : List (List Char) → List DiffStat
  | [] => []
  | line :: rest =>
    match goFields line with
    | [code, name] =>
      match statMap code with
      | some st => { Stat := st, Filename := name } :: diffStatusLines rest
      | none => diffStatusLines rest
    | _ => diffStatusLines rest

/-- `DiffStatus` applied to the text the diff command produced (the command
invocation itself is the external oracle). -/
def DiffStatus (out : List Char) : List DiffStat :=
  diffStatusLines (splitOnChar (Char.ofNat 10) out)

/-- Result of `Branch`: the Go function either returns a branch name, or the
`errors.New("unexpected output from git command")` failure, or — when the
starred line is shorter than two bytes — the slice `line[2:]` panics. -/
inductive BranchResult where
  | ok (branch : List Char)
  | unrecognized
  | panicked
deriving DecidableEq

/-- The line scan of `Branch`: first line with prefix `"*"` yields
`line[2:]`; Go's slice is defined only when `2 ≤ len(line)`. -/
def branchScan : List (List Char) → BranchResult
  | [] => BranchResult.unrecognized
  | line :: rest =>
    if (str "*").isPrefixOf line then
      if 2 ≤ line.length then BranchResult.ok (line.drop 2)
      else BranchResult.panicked
    else branchScan rest

/-- `Branch` applied to the output of `git branch`. -/
def Branch (out : List Char) : BranchResult :=
  branchScan (splitOnChar (Char.ofNat 10) out)

/-- `CurrentCommit` applied to the output of `git rev-parse HEAD`:
`strings.TrimSuffix(out, "\n")`. -/
def CurrentCommit (out : List Char) : List Char :=
  goTrimSuffix (str "\n") out

/-- A `doGit` invocation either fails (wrapped error carrying the combined
output) or returns the combined output text. -/
structure CmdError where
  msg : List Char
deriving DecidableEq

/-- The result type of the `doGit` oracle. -/
def CmdResult : Type := Except CmdError (List Char)

/-- `IsClean`, as a function of the results of its two `doGit` calls
(`git fetch`, then `git status`): any failure is swallowed into `false`;
success requires both fixed substrings in the status output. -/
def IsClean (fetchResult statusResult : CmdResult) : Bool :=
  match fetchResult with
  | Except.error _ => false
  | Except.ok _ =>
    match statusResult with
    | Except.error _ => false
    | Except.ok out =>
      if hasSubstr (str "up-to-date") out && hasSubstr (str "working directory clean") out
      then true
      else false

/-- `ShowForCommit` issues `doGit("show", fmt.Sprintf("%s:%s", commit, path))`;
we model it by the argument vector it passes to the git oracle. -/
def ShowForCommit (commit path : List Char) : List (List Char) :=
  [str "show", commit ++ ':' :: path]

/-- The scan loop of `ShowDeletedFile`: `commitID` counts lines with prefix
`"commit"`; at the second one the text after the first space is returned
(`break`), and `commit` stays `""` when fewer than two are found. -/
def secondCommitLoop : List (List Char) → Nat → List Char
  | [], _ => []
  | line :: rest, commitID =>
    if (str "commit").isPrefixOf line then
      if commitID + 1 = 2 then afterFirstSpace line
      else secondCommitLoop rest (commitID + 1)
    else secondCommitLoop rest commitID

/-- The commit id `ShowDeletedFile` extracts from the log output. -/
def deletedFileCommit (out : List Char) : List Char :=
  secondCommitLoop (splitOnChar (Char.ofNat 10) out) 0

/-- `ShowDeletedFile` as a function of the `git log --full-history -2 -- path`
output: it ends in `return r.ShowForCommit(commit, path)`. -/
def ShowDeletedFile (out path : List Char) : List (List Char) :=
  ShowForCommit (deletedFileCommit out) path

/-! ## Reconciliation (`CloneOrPull`, `Pull`, `New`) -/

/-- Outcome of `os.Stat(path.Join(r.RepoDir, ".git"))` as `CloneOrPull`
distinguishes it: `os.IsNotExist(err)` true, or anything else (success or a
different stat error). -/
inductive StatGitDir where
  | found
  | notExist
  | otherError
deriving DecidableEq

/-- The argument vector `Pull` builds: `["pull"]`, plus `"--rebase"` when the
folded options have `Rebase` set. -/
def pullArgs (options : List SetOptFunc) : List (List Char) :=
  if (getOpts options).Rebase then [str "pull", str "--rebase"] else [str "pull"]

/-- What `CloneOrPull` decides to do. -/
inductive ReconcileAction where
  | doClone
  | doPull (args : List (List Char))
  | doNothing
deriving DecidableEq

/-- `CloneOrPull`, as a function of the `.git` stat outcome and of the value
`IsClean()` returned: clone when the marker is missing, otherwise pull with
`SetOptRebase()` when not clean, otherwise return `nil`. -/
def CloneOrPull (st : StatGitDir) (clean : Bool) : ReconcileAction :=
  if st = StatGitDir.notExist then ReconcileAction.doClone
  else if !clean then ReconcileAction.doPull (pullArgs [SetOptRebase])
  else ReconcileAction.doNothing

/-- The name `New` derives from the url: last `/`-segment, with a trailing
`".git"` (4 bytes) stripped via `repoName[:len(repoName)-4]`. -/
def repoNameOf (url : List Char) : List Char :=
  let parts := splitOnChar '/' url
  let rn := parts.getLastD []
  if (str ".git").isSuffixOf rn then rn.take (rn.length - 4) else rn

/-- Where the straight-line prefix of `New` can end up. `invalidURL` is the
outcome the specification describes for a segment-less URL; the source has
no branch producing it, and the constructor exists only so the claim can be
stated. -/
inductive NewOutcome where
  | invalidURL
  | reconciles (repo : Repo)
deriving DecidableEq

/-- The prefix of `New` before `repo.CloneOrPull()` is called: derive the
name, build the `Repo` value, pick `RepoDir` from the `CloneDir` override or
the derived name. No failure path exists before reconciliation. -/
def newFirstStep (url workDir : List Char) (options : List SetOptFunc) : NewOutcome :=
  let opts := getOpts options
  let repoName := repoNameOf url
  NewOutcome.reconciles
    { URL := url
      Name := repoName
      WorkDir := workDir
      RepoDir := if opts.CloneDir = [] then pathJoin workDir repoName
                 else pathJoin workDir opts.CloneDir }

/-! ## Method dispatch (for the field-immutability invariant)

Every exported method of `Repo` reads the struct's fields and never assigns
to them; `runOp` makes that explicit by returning the `Repo` value the
operation leaves behind next to the operation's visible result. -/

/-- One invocation of a `Repo` method, carrying the oracle data (command
outputs, stat outcomes) the method consumes. -/
inductive RepoOp where
  | clone
  | pull (options : List SetOptFunc)
  | cloneOrPull (st : StatGitDir) (clean : Bool)
  | commit (msg : List Char)
  | push
  | add (pattern : List Char)
  | addCommitPush (msg : List Char)
  | checkout (b : List Char)
  | branch (out : List Char)
  | currentCommit (out : List Char)
  | diffStatus (c1 c2 out : List Char)
  | showDeletedFile (out p : List Char)
  | showForCommit (c p : List Char)
  | isClean (fetchResult statusResult : CmdResult)
  | commitAuthor (commit out : List Char)
  | doGit (args : List (List Char))

/-- What a method invocation produces. -/
inductive OpResult where
  | invoked (dir : List Char) (argv : List (List Char))
  | seq (steps : List OpResult)
  | text (s : List Char)
  | branchRes (b : BranchResult)
  | diffs (ds : List DiffStat)
  | action (a : ReconcileAction)
  | flag (b : Bool)

/-- Dispatch one method on a `Repo`: the first component is the receiver
after the call (the Go methods contain no field assignment, so it is passed
through), the second the visible result. -/
def runOp (r : Repo) : RepoOp → Repo × OpResult
  | RepoOp.clone => (r, OpResult.invoked r.WorkDir [str "clone", r.URL, r.RepoDir])
  | RepoOp.pull options => (r, OpResult.invoked r.RepoDir (pullArgs options))
  | RepoOp.cloneOrPull st clean => (r, OpResult.action (CloneOrPull st clean))
  | RepoOp.commit msg => (r, OpResult.invoked r.RepoDir [str "commit", str "-m", msg])
  | RepoOp.push => (r, OpResult.invoked r.RepoDir [str "push"])
  | RepoOp.add pattern => (r, OpResult.invoked r.RepoDir [str "add", pattern])
  | RepoOp.addCommitPush msg =>
      (r, OpResult.seq
        [OpResult.invoked r.RepoDir [str "add", str "."],
         OpResult.invoked r.RepoDir [str "commit", str "-m", msg],
         OpResult.invoked r.RepoDir [str "push"]])
  | RepoOp.checkout b => (r, OpResult.invoked r.RepoDir [str "checkout", b])
  | RepoOp.branch out => (r, OpResult.branchRes (Branch out))
  | RepoOp.currentCommit out => (r, OpResult.text (CurrentCommit out))
  | RepoOp.diffStatus _ _ out => (r, OpResult.diffs (DiffStatus out))
  | RepoOp.showDeletedFile out p => (r, OpResult.invoked r.RepoDir (ShowDeletedFile out p))
  | RepoOp.showForCommit c p => (r, OpResult.invoked r.RepoDir (ShowForCommit c p))
  | RepoOp.isClean fetchResult statusResult => (r, OpResult.flag (IsClean fetchResult statusResult))
  | RepoOp.commitAuthor _ out => (r, OpResult.text out)
  | RepoOp.doGit args => (r, OpResult.invoked r.RepoDir args)

/-! ## Specification-side definitions -/

/-- The acceptance rule of spec section 4.4, stated per line: a line is kept
exactly when it has two whitespace-separated fields whose first is one of
`A`, `M`, `D`, and it then maps to the corresponding record. -/
def acceptDiffLine (line : List Char) : Option DiffStat :=
  match goFields line with
  | [code, name] => (statMap code).map fun st => { Stat := st, Filename := name }
  | _ => none

/-! ## Helper lemmas about the string utilities -/

theorem splitOnChar_ne_nil (c : Char) (s : List Char) : splitOnChar c s ≠ [] := by
  induction s with
  | nil => simp [splitOnChar]
  | cons x xs ih =>
    simp only [splitOnChar]
    split
    · simp
    · split
      · simp
      · simp

theorem splitOnChar_eq_single (c : Char) (s : List Char) (h : c ∉ s) :
    splitOnChar c s = [s] := by
  induction s with
  | nil => rfl
  | cons x xs ih =>
    have hx : ¬ x = c := fun e => h (e ▸ List.mem_cons_self x xs)
    have hxs : c ∉ xs := fun m => h (List.mem_cons_of_mem _ m)
    simp only [splitOnChar, if_neg hx, ih hxs]

theorem splitOnChar_cons_sep (c : Char) (s : List Char) :
    splitOnChar c (c :: s) = [] :: splitOnChar c s := by
  simp [splitOnChar]

theorem splitOnChar_cons_ne (c x : Char) (s : List Char) (hx : ¬ x = c)
    (h : List Char) (t : List (List Char)) (e : splitOnChar c s = h :: t) :
    splitOnChar c (x :: s) = (x :: h) :: t := by
  simp [splitOnChar, hx, e]

theorem splitOnChar_append_sep (c : Char) (p s : List Char) :
    (splitOnChar c (p ++ c :: s)).getLast? = (splitOnChar c s).getLast?
    ∧ 2 ≤ (splitOnChar c (p ++ c :: s)).length := by
  induction p with
  | nil =>
    obtain ⟨h, t, e⟩ := List.exists_cons_of_ne_nil (splitOnChar_ne_nil c s)
    refine ⟨?_, ?_⟩
    · show (splitOnChar c (c :: s)).getLast? = _
      rw [splitOnChar_cons_sep, e, List.getLast?_cons_cons]
    · show 2 ≤ (splitOnChar c (c :: s)).length
      rw [splitOnChar_cons_sep, e]
      simp only [List.length_cons]
      omega
  | cons x xs ih =>
    obtain ⟨hlast, hlen⟩ := ih
    obtain ⟨h, t, e⟩ := List.exists_cons_of_ne_nil (splitOnChar_ne_nil c (xs ++ c :: s))
    have ht : t ≠ [] := by
      intro ht0
      rw [e, ht0] at hlen
      simp only [List.length_cons, List.length_nil] at hlen
      omega
    obtain ⟨h2, t2, e2⟩ := List.exists_cons_of_ne_nil ht
    show (splitOnChar c (x :: (xs ++ c :: s))).getLast? = _ ∧
      2 ≤ (splitOnChar c (x :: (xs ++ c :: s))).length
    by_cases hx : x = c
    · subst hx
      rw [splitOnChar_cons_sep, e]
      refine ⟨?_, ?_⟩
      · rw [List.getLast?_cons_cons, ← e, hlast]
      · simp only [List.length_cons]
        omega
    · rw [splitOnChar_cons_ne c x _ hx h t e]
      rw [e, e2] at hlast hlen
      subst e2
      refine ⟨?_, ?_⟩
      · rw [List.getLast?_cons_cons, ← List.getLast?_cons_cons (b := h2), hlast]
      · simp only [List.length_cons] at hlen ⊢
        omega

theorem hasSubstr_iff (needle hay : List Char) :
    hasSubstr needle hay = true ↔ needle <:+: hay := by
  induction hay with
  | nil =>
    simp only [hasSubstr, List.isPrefixOf_iff_prefix, List.prefix_nil, List.infix_nil]
  | cons x t ih =>
    simp only [hasSubstr, Bool.or_eq_true, List.isPrefixOf_iff_prefix, ih,
      List.infix_cons_iff]

theorem branchScan_eq (ls : List (List Char)) :
    branchScan ls =
      match ls.find? (fun l => (str "*").isPrefixOf l) with
      | none => BranchResult.unrecognized
      | some line =>
          if 2 ≤ line.length then BranchResult.ok (line.drop 2)
          else BranchResult.panicked := by
  induction ls with
  | nil => rfl
  | cons l ls ih =>
    cases hp : (str "*").isPrefixOf l with
    | true =>
      rw [List.find?_cons_of_pos _ hp]
      simp only [branchScan, hp, if_true]
    | false =>
      rw [List.find?_cons_of_neg _ (by simp [hp])]
      simpa only [branchScan, hp, Bool.false_eq_true, if_false] using ih

theorem secondCommitLoop_first (ls : List (List Char)) (b : List Char)
    (rest : List (List Char))
    (h : ls.filter (fun l => (str "commit").isPrefixOf l) = b :: rest) :
    secondCommitLoop ls 1 = afterFirstSpace b := by
  induction ls with
  | nil => simp at h
  | cons l ls ih =>
    cases hp : (str "commit").isPrefixOf l with
    | true =>
      rw [List.filter_cons_of_pos hp] at h
      obtain ⟨rfl, -⟩ := List.cons.inj h
      simp [secondCommitLoop, hp]
    | false =>
      rw [List.filter_cons_of_neg (by simp [hp])] at h
      simpa only [secondCommitLoop, hp, Bool.false_eq_true, if_false] using ih h

theorem secondCommitLoop_second (ls : List (List Char)) (a b : List Char)
    (rest : List (List Char))
    (h : ls.filter (fun l => (str "commit").isPrefixOf l) = a :: b :: rest) :
    secondCommitLoop ls 0 = afterFirstSpace b := by
  induction ls with
  | nil => simp at h
  | cons l ls ih =>
    cases hp : (str "commit").isPrefixOf l with
    | true =>
      rw [List.filter_cons_of_pos hp] at h
      obtain ⟨rfl, h2⟩ := List.cons.inj h
      have : secondCommitLoop (l :: ls) 0 = secondCommitLoop ls 1 := by
        simp [secondCommitLoop, hp]
      rw [this]
      exact secondCommitLoop_first ls b rest h2
    | false =>
      rw [List.filter_cons_of_neg (by simp [hp])] at h
      simpa only [secondCommitLoop, hp, Bool.false_eq_true, if_false] using ih h

theorem diffStatusLines_cons (l : List Char) (ls : List (List Char)) :
    diffStatusLines (l :: ls) =
      match acceptDiffLine l with
      | some d => d :: diffStatusLines ls
      | none => diffStatusLines ls := by
  simp only [diffStatusLines, acceptDiffLine]
  cases hf : goFields l with
  | nil => rfl
  | cons c rest =>
    cases rest with
    | nil => rfl
    | cons n rest2 =>
      cases rest2 with
      | nil => cases hst : statMap c <;> simp [hst]
      | cons u rest3 => rfl

theorem diffStatusLines_eq_filterMap (ls : List (List Char)) :
    diffStatusLines ls = ls.filterMap acceptDiffLine := by
  induction ls with
  | nil => rfl
  | cons l ls ih =>
    rw [diffStatusLines_cons, List.filterMap_cons]
    cases acceptDiffLine l <;> simp [ih]

theorem filterMap_eq_map_filter {α β : Type} (f : α → Option β) (d : β) (l : List α) :
    l.filterMap f = (l.filter fun a => (f a).isSome).map fun a => (f a).getD d := by
  induction l with
  | nil => rfl
  | cons x xs ih =>
    cases hx : f x <;> simp [List.filterMap_cons, List.filter_cons, hx, ih]

/-! ## The claims -/

/-- C1: `CloneOrPull` clones exactly when the `.git` marker of `RepoDir` does
not exist; otherwise it pulls with the rebase flag (`git pull --rebase`, via
`SetOptRebase()`) exactly when `IsClean()` returned `false`, and issues no
clone and no pull — succeeding — when the working copy is clean. -/
theorem cloneOrPull_spec (st : StatGitDir) (clean : Bool) :
    (st = StatGitDir.notExist → CloneOrPull st clean = ReconcileAction.doClone)
    ∧ (st ≠ StatGitDir.notExist → clean = false →
        CloneOrPull st clean = ReconcileAction.doPull [str "pull", str "--rebase"])
    ∧ (st ≠ StatGitDir.notExist → clean = true →
        CloneOrPull st clean = ReconcileAction.doNothing) := by
  cases st <;> cases clean <;> decide

/-- Witness for C1: with the marker present and `IsClean() = false`, the
decision is a pull whose argument vector carries the rebase flag. -/
theorem cloneOrPull_spec_witness :
    StatGitDir.found ≠ StatGitDir.notExist ∧
    CloneOrPull StatGitDir.found false = ReconcileAction.doPull [str "pull", str "--rebase"] :=
  ⟨by decide, (cloneOrPull_spec StatGitDir.found false).2.1 (by decide) rfl⟩

/-- C2: when the log output has at least two lines beginning with `commit`,
`ShowDeletedFile` extracts the text after the first space of the second such
line and hands it, with the queried path, to `ShowForCommit`. -/
theorem showDeletedFile_spec (out path a b : List Char) (rest : List (List Char))
    (h : (splitOnChar (Char.ofNat 10) out).filter
        (fun l => (str "commit").isPrefixOf l) = a :: b :: rest) :
    ShowDeletedFile out path = ShowForCommit (afterFirstSpace b) path := by
  unfold ShowDeletedFile deletedFileCommit
  rw [secondCommitLoop_second _ a b rest h]

/-- Witness for C2: the spec's scenario — `commit abc123` then `commit def456`
in the history — resolves the second id `def456` and shows `def456:f.txt`. -/
theorem showDeletedFile_spec_witness :
    (splitOnChar (Char.ofNat 10)
        (str "commit abc123\nAuthor: A\n\ncommit def456\nAuthor: B\n")).filter
        (fun l => (str "commit").isPrefixOf l) =
      [str "commit abc123", str "commit def456"]
    ∧ ShowDeletedFile (str "commit abc123\nAuthor: A\n\ncommit def456\nAuthor: B\n")
        (str "f.txt") = [str "show", str "def456:f.txt"] := by
  refine ⟨by decide, ?_⟩
  rw [showDeletedFile_spec (str "commit abc123\nAuthor: A\n\ncommit def456\nAuthor: B\n")
    (str "f.txt") (str "commit abc123") (str "commit def456") [] (by decide)]
  decide

/-- C3 (counterexample): the claim promises, for every output, the substring
after the first two characters of a starred line, never a panic and never an
empty-string success. On the output `"*"` the Go slice `line[2:]` is out of
range (a run-time panic), and on `"*x"` the call succeeds with the empty
string. -/
theorem branch_spec_counterexample :
    Branch (str "*") = BranchResult.panicked
    ∧ Branch (str "*x") = BranchResult.ok [] := by
  exact ⟨by decide, by decide⟩

/-- C3 (amended): scanning the split output, `Branch` returns
`UnrecognizedOutput` when no line begins with `*` (no panic and no success in
that case); when some line does, the first such line yields its text after
the first two characters provided it is at least two characters long (empty
when exactly two), and panics otherwise. On the spec's scenario listing it
returns `main`. -/
theorem branch_spec_amended :
    (∀ out : List Char,
      Branch out =
        match (splitOnChar (Char.ofNat 10) out).find?
            (fun l => (str "*").isPrefixOf l) with
        | none => BranchResult.unrecognized
        | some line =>
            if 2 ≤ line.length then BranchResult.ok (line.drop 2)
            else BranchResult.panicked)
    ∧ Branch (str "  develop\n* main\n  feature/x\n") = BranchResult.ok (str "main") :=
  ⟨fun _ => branchScan_eq _, by decide⟩

/-- C4 (counterexample): for the empty URL — whose split on `/` is the
single empty segment, the claim's "no segments" condition — `New` raises no
`InvalidURL` error: it derives the empty name and proceeds straight to
reconciliation. The source has no failure path before `repo.CloneOrPull()`. -/
theorem new_invalidURL_counterexample :
    splitOnChar '/' ([] : List Char) = [[]]
    ∧ newFirstStep [] (str "wd") [] =
        NewOutcome.reconciles
          { URL := [], Name := [], WorkDir := str "wd", RepoDir := str "wd" } := by
  exact ⟨by decide, by decide⟩

/-- C4 (amended): `New` never fails with `InvalidURL`; splitting always
yields at least one (possibly empty) segment, and for every URL — the empty
one included — construction derives the name and proceeds to reconciliation. -/
theorem new_always_reconciles (url workDir : List Char) (options : List SetOptFunc) :
    ∃ r : Repo, newFirstStep url workDir options = NewOutcome.reconciles r
      ∧ r.URL = url ∧ r.Name = repoNameOf url ∧ r.WorkDir = workDir :=
  ⟨_, rfl, rfl, rfl, rfl⟩

/-- C5: `IsClean` never propagates a failure — it is `true` exactly when the
fetch succeeded, the status command succeeded, and the status output contains
both the substring `up-to-date` and the substring `working directory clean`
(containment stated as list infix). -/
theorem isClean_spec (fetchResult statusResult : CmdResult) :
    IsClean fetchResult statusResult = true ↔
      (∃ fo, fetchResult = Except.ok fo) ∧
      ∃ out, statusResult = Except.ok out ∧
        str "up-to-date" <:+: out ∧ str "working directory clean" <:+: out := by
  cases fetchResult with
  | error e => simp [IsClean]
  | ok fo =>
    cases statusResult with
    | error e => simp [IsClean]
    | ok out =>
      simp only [IsClean, ← hasSubstr_iff]
      constructor
      · intro hc
        exact ⟨⟨fo, rfl⟩, out, rfl, by simpa [Bool.and_eq_true] using hc⟩
      · rintro ⟨-, out1, he, h1, h2⟩
        injection he with he'
        subst he'
        simp [h1, h2]

/-- C6: `DiffStatus` keeps exactly the lines accepted by the spec's rule —
two whitespace-separated fields, first field `A`, `M` or `D` mapped through
`statMap` — and on the spec's scenario diff it returns the three records,
dropping the `R100` rename line. (Each record's kind lies in `ModType`,
which has only the constructors Added/Modified/Deleted.) -/
theorem diffStatus_spec :
    (∀ out : List Char,
        DiffStatus out = (splitOnChar (Char.ofNat 10) out).filterMap acceptDiffLine)
    ∧ DiffStatus (str "A\tnew.txt\nM\told.txt\nD\tgone.txt\nR100\trenamed.txt\n") =
        [{ Stat := ModType.StatNew, Filename := str "new.txt" },
         { Stat := ModType.StatModified, Filename := str "old.txt" },
         { Stat := ModType.StatDeleted, Filename := str "gone.txt" }] :=
  ⟨fun _ => diffStatusLines_eq_filterMap _, by decide⟩

/-- C7: the derived short name is the final `/`-delimited segment of the
URL, with a trailing `.git` stripped when present and verbatim otherwise
(both for URLs with a slash and for slash-free URLs, whose only segment is
the URL itself). -/
theorem repoName_spec (url p seg core : List Char) (hseg : '/' ∉ seg)
    (hurl : url = seg ∨ url = p ++ '/' :: seg) :
    (seg = core ++ str ".git" → repoNameOf url = core)
    ∧ (¬ str ".git" <:+ seg → repoNameOf url = seg) := by
  have hlast : (splitOnChar '/' url).getLastD [] = seg := by
    cases hurl with
    | inl h =>
      rw [h, splitOnChar_eq_single '/' seg hseg]
      rfl
    | inr h =>
      rw [h, List.getLastD_eq_getLast?, (splitOnChar_append_sep '/' p seg).1,
        splitOnChar_eq_single '/' seg hseg]
      rfl
  constructor
  · rintro rfl
    have hs : (str ".git").isSuffixOf (core ++ str ".git") = true :=
      (List.isSuffixOf_iff_suffix).2 (List.suffix_append _ _)
    rw [repoNameOf, hlast, if_pos hs]
    simp only [List.length_append]
    rw [show core.length + (str ".git").length - 4 = core.length from by
      simp [str]]
    exact List.take_left _ _
  · intro hns
    have hs : (str ".git").isSuffixOf seg = false := by
      rw [← Bool.not_eq_true]
      intro hc
      exact hns ((List.isSuffixOf_iff_suffix).1 hc)
    rw [repoNameOf, hlast, hs]
    rfl

/-- Witness for C7: `github.com/x/repo.git` has final segment `repo.git`,
so the derived name is `repo`. -/
theorem repoName_spec_witness :
    ('/' ∉ str "repo.git")
    ∧ str "repo.git" = str "repo" ++ str ".git"
    ∧ repoNameOf (str "github.com/x/repo.git") = str "repo" := by
  refine ⟨by decide, by decide, ?_⟩
  exact (repoName_spec (str "github.com/x/repo.git") (str "github.com/x")
    (str "repo.git") (str "repo") (by decide) (Or.inr (by decide))).1 (by decide)

/-- C8: `CurrentCommit` removes exactly one trailing newline — the output
`core ++ "\n"` comes back as `core` verbatim (so leading, interior and any
further trailing whitespace survive), and output not ending in a newline is
returned unchanged. -/
theorem currentCommit_spec (out : List Char) :
    (∀ core : List Char, out = core ++ str "\n" → CurrentCommit out = core)
    ∧ (out.getLast? ≠ some (Char.ofNat 10) → CurrentCommit out = out) := by
  constructor
  · rintro core rfl
    have hs : (str "\n").isSuffixOf (core ++ str "\n") = true :=
      (List.isSuffixOf_iff_suffix).2 (List.suffix_append _ _)
    rw [CurrentCommit, goTrimSuffix, if_pos hs]
    simp only [List.length_append]
    rw [show core.length + (str "\n").length - (str "\n").length = core.length from by
      simp [str]]
    exact List.take_left _ _
  · intro h
    rw [CurrentCommit, goTrimSuffix, if_neg]
    intro hs
    obtain ⟨t, ht⟩ := (List.isSuffixOf_iff_suffix).1 hs
    rw [show str "\n" = [Char.ofNat 10] from rfl] at ht
    exact h (ht ▸ List.getLast?_concat t)

/-- Witness for C8: `"abc\n\n"` keeps its inner newline — only the last one
is stripped. -/
theorem currentCommit_spec_witness :
    str "abc\n\n" = str "abc\n" ++ str "\n"
    ∧ CurrentCommit (str "abc\n\n") = str "abc\n" :=
  ⟨by decide, (currentCommit_spec (str "abc\n\n")).1 (str "abc\n") (by decide)⟩

/-- C9: no method of `Repo` mutates the receiver — after any operation the
`RepoDir`, `URL`, `Name` and `WorkDir` fields are those construction
computed. -/
theorem repo_fields_immutable (r : Repo) (op : RepoOp) :
    (runOp r op).1.RepoDir = r.RepoDir
    ∧ (runOp r op).1.URL = r.URL
    ∧ (runOp r op).1.Name = r.Name
    ∧ (runOp r op).1.WorkDir = r.WorkDir := by
  cases op <;> exact ⟨rfl, rfl, rfl, rfl⟩

/-- C10: `DiffStatus` preserves input order — the result is exactly the
list of accepted lines, in their order in the output, each mapped to its
record (so the k-th record comes from the k-th accepted line). -/
theorem diffStatus_order (out : List Char) :
    DiffStatus out =
      ((splitOnChar (Char.ofNat 10) out).filter
          (fun l => (acceptDiffLine l).isSome)).map
        (fun l => (acceptDiffLine l).getD { Stat := ModType.StatNew, Filename := [] }) := by
  rw [DiffStatus, diffStatusLines_eq_filterMap, filterMap_eq_map_filter]
